import Mathlib

/-!
Verification of the Markdown conversion core of hwpxlib's Python bindings
(`hwpxlib_python/converters.py`), shallowly embedded over `List Char`.

Direction A: `MarkdownFormatter.format_text` (flat extracted text → Markdown),
with its helpers `_format_tables` and `_create_markdown_table`.
Direction B: `MarkdownToHWPXConverter._parse_markdown_blocks` (Markdown →
typed blocks), `_is_block_start`, and the inline tokenizer
`_parse_inline_formatting` with its consumer `_create_formatted_text_runs`.

Python strings are modelled as `List Char`; Python's unbounded `while` loops
are modelled with an explicit fuel parameter returning `Option` (`none` =
fuel exhausted), so that genuine non-termination of the source is expressible.
-/

namespace Hwpx

/-- Characters treated as whitespace by Python's `str.strip` / `\s`
(ASCII range: space, tab, newline, carriage return, vertical tab, form feed). -/
def isPySpace (c : Char) : Bool :=
  c = ' ' || c = '\t' || c = '\n' || c = '\r' || c = Char.ofNat 11 || c = Char.ofNat 12

/-- Python `str.rstrip()` (no arguments: strips all trailing whitespace). -/
def pyRstrip (l : List Char) : List Char :=
  ((l.reverse).dropWhile isPySpace).reverse

/-- Python `str.strip()`: leading and trailing whitespace removed. -/
def pyStrip (l : List Char) : List Char :=
  (pyRstrip l).dropWhile isPySpace

/-- Python `str.rstrip` restricted to space and tab, as performed per line by
`re.sub(r'[ \t]+$', '', text, flags=re.MULTILINE)`. -/
def rstripSpaceTab (l : List Char) : List Char :=
  ((l.reverse).dropWhile (fun c => c = ' ' || c = '\t')).reverse

/-- Python `str.split(sep)` for a one-character separator. -/
def splitOnChar (sep : Char) : List Char → List (List Char)
  | [] => [[]]
  | c :: rest =>
    match splitOnChar sep rest with
    | [] => if c = sep then [[], []] else [[c]]
    | s :: ss => if c = sep then [] :: s :: ss else (c :: s) :: ss

/-- `re.sub(r'\n{3,}', '\n\n', text)`: runs of three or more newlines become
exactly two.  `seen` counts the newlines of the current run already emitted. -/
def collapseNewlinesGo (seen : Nat) : List Char → List Char
  | [] => []
  | c :: rest =>
    if c = '\n' then
      if seen ≥ 2 then collapseNewlinesGo seen rest
      else '\n' :: collapseNewlinesGo (seen + 1) rest
    else c :: collapseNewlinesGo 0 rest

def collapseNewlines (l : List Char) : List Char := collapseNewlinesGo 0 l

/-- `re.sub(r'[ \t]+$', '', text, flags=re.MULTILINE)`. -/
def stripTrailingPerLine (l : List Char) : List Char :=
  List.intercalate ['\n'] ((splitOnChar '\n' l).map rstripSpaceTab)

/-- `re.sub(r' {2,}', ' ', text)`: runs of two or more spaces become one.
`prevSpace` records whether the previously emitted character was a space. -/
def collapseSpacesGo (prevSpace : Bool) : List Char → List Char
  | [] => []
  | c :: rest =>
    if c = ' ' then
      if prevSpace then collapseSpacesGo true rest
      else ' ' :: collapseSpacesGo true rest
    else c :: collapseSpacesGo false rest

def collapseSpaces (l : List Char) : List Char := collapseSpacesGo false l

/-- A candidate heuristic table row in `_format_tables`:
`'\t' in line and len(line.split('\t')) >= 2`. -/
def isTableCandidate (l : List Char) : Bool :=
  l.contains '\t' && (splitOnChar '\t' l).length ≥ 2

/-- `'| ' + ' | '.join(cells) + ' |'`. -/
def mkTableRow (cells : List (List Char)) : List Char :=
  ['|', ' '] ++ List.intercalate [' ', '|', ' '] cells ++ [' ', '|']

/-- `MarkdownFormatter._create_markdown_table`: render accumulated rows as
header, separator (`---` per column), data rows, and a trailing empty line.
Columns are padded to the maximum row width and every cell is stripped. -/
def createMarkdownTable (rows : List (List (List Char))) : List (List Char) :=
  if rows = [] then []
  else
    let maxCols := (rows.map List.length).foldl max 0
    let normalizedRows :=
      rows.map (fun row => (row ++ List.replicate (maxCols - row.length) []).map pyStrip)
    match normalizedRows with
    | [] => []
    | header :: body =>
      mkTableRow header ::
      mkTableRow (header.map (fun _ => ['-', '-', '-'])) ::
      body.map mkTableRow ++ [[]]

/-- The line-scan loop of `MarkdownFormatter._format_tables`, carrying the
mutable `in_table` flag and `table_rows` accumulator explicitly. -/
def formatTablesGo : List (List Char) → Bool → List (List (List Char)) → List (List Char)
  | [], inTable, tableRows =>
    if inTable && !tableRows.isEmpty then createMarkdownTable tableRows else []
  | l :: rest, inTable, tableRows =>
    if pyStrip l = [] then
      if inTable then createMarkdownTable tableRows ++ l :: formatTablesGo rest false []
      else l :: formatTablesGo rest inTable tableRows
    else if isTableCandidate l then
      formatTablesGo rest true ((if inTable then tableRows else []) ++ [splitOnChar '\t' l])
    else
      if inTable then createMarkdownTable tableRows ++ l :: formatTablesGo rest false []
      else l :: formatTablesGo rest inTable tableRows

/-- `MarkdownFormatter._format_tables`. -/
def formatTables (text : List Char) : List Char :=
  List.intercalate ['\n'] (formatTablesGo (splitOnChar '\n' text) false [])

/-- The look-ahead merge loop of `MarkdownFormatter.format_text` (executed when
`preserve_linebreaks` is false): table rows (stripped line starts with `|`)
and blank lines are copied; otherwise, if the next line is non-blank and not a
table row, it is appended to the current line with a single space. -/
def mergeLines : List (List Char) → List (List Char)
  | [] => []
  | [l] => [l]
  | l :: nxt :: rest2 =>
    if (pyStrip l).head? = some '|' then l :: mergeLines (nxt :: rest2)
    else if pyStrip l = [] then l :: mergeLines (nxt :: rest2)
    else
      if pyStrip nxt ≠ [] ∧ (pyStrip nxt).head? ≠ some '|' then
        (l ++ ' ' :: pyStrip nxt) :: mergeLines rest2
      else l :: mergeLines (nxt :: rest2)

/-- `MarkdownFormatter.format_text(text)` with flags
`format_tables` and `preserve_linebreaks`. -/
def formatText (text : List Char) (formatTablesFlag preserveLinebreaks : Bool) : List Char :=
  if text = [] then []
  else
    let f1 := collapseNewlines text
    let f2 := stripTrailingPerLine f1
    let f3 := if formatTablesFlag then formatTables f2 else f2
    let f4 :=
      if !preserveLinebreaks then
        List.intercalate ['\n'] (mergeLines (splitOnChar '\n' f3))
      else f3
    let f5 := collapseSpaces f4
    pyRstrip f5 ++ ['\n']

/-! ### Direction B: `_parse_markdown_blocks` -/

/-- A parsed Markdown block, as built by `_parse_markdown_blocks`
(dictionaries with a `type` key in the Python source). -/
inductive Block
  | heading (level : Nat) (content : List Char)
  | paragraph (content : List Char)
  | unorderedList (items : List (List Char))
  | orderedList (items : List (List Char))
  | table (rows : List (List (List Char)))
deriving DecidableEq

/-- The heading branch: a line starting with `#` yields a heading exactly when
the leading hash run has length at most six and is followed by a literal
space; the content is the stripped remainder. -/
def headingOf (line : List Char) : Option (Nat × List Char) :=
  if line.head? = some '#' then
    if (line.takeWhile (fun c => c = '#')).length ≤ 6 &&
        (line.drop (line.takeWhile (fun c => c = '#')).length).head? = some ' ' then
      some ((line.takeWhile (fun c => c = '#')).length,
        pyStrip (line.drop (line.takeWhile (fun c => c = '#')).length))
    else none
  else none

/-- `re.match(r'^[-*+]\s', line)`. -/
def isULMarker (line : List Char) : Bool :=
  match line with
  | a :: b :: _ => (a = '-' || a = '*' || a = '+') && isPySpace b
  | _ => false

/-- Does the list start with a whitespace character? -/
def startsWithSpace : List Char → Bool
  | s :: _ => isPySpace s
  | [] => false

/-- `re.match(r'^\d+\.\s', line)`, scanned left to right
(`seen` records whether at least one digit has been read). -/
def olScan (seen : Bool) : List Char → Bool
  | [] => false
  | c :: rest =>
    if c.isDigit then olScan true rest
    else if c = '.' then seen && startsWithSpace rest
    else false

def isOLMarker (line : List Char) : Bool := olScan false line

/-- `re.sub(r'^\d+\.\s', '', line)`: remove the leading digits, the dot and
one whitespace character (the trailing content is not stripped). -/
def olItem (line : List Char) : List Char :=
  if isOLMarker line then
    (line.dropWhile Char.isDigit).drop 2
  else line

/-- `lines[i][2:].strip()` for an unordered-list item. -/
def ulItem (line : List Char) : List Char := pyStrip (line.drop 2)

/-- `re.match(r'^\s*\|[\s\-|]*\|\s*$', line)`: after stripping surrounding
whitespace the line starts and ends with `|`, has length at least two, and
consists only of `|`, `-` and whitespace. -/
def isSepRow (line : List Char) : Bool :=
  let t := pyStrip line
  t.length ≥ 2 && t.head? = some '|' && t.getLast? = some '|' &&
    t.all (fun c => c = '|' || c = '-' || isPySpace c)

/-- `[cell.strip() for cell in line.split('|')[1:-1]]`. -/
def rowCells (line : List Char) : List (List Char) :=
  (((splitOnChar '|' line).drop 1).dropLast).map pyStrip

/-- `MarkdownToHWPXConverter._is_block_start` (applied to the raw line). -/
def isBlockStart (line : List Char) : Bool :=
  line.head? = some '#' || isULMarker line || isOLMarker line || line.contains '|'

/-- Membership test of the inner `while` of the table branch:
`lines[i].strip() and '|' in lines[i]`. -/
def tableLinePred (line : List Char) : Bool :=
  !(pyStrip line).isEmpty && line.contains '|'

/-- Membership test of the paragraph-continuation `while`:
`lines[i].strip() and not self._is_block_start(lines[i])`. -/
def contPred (line : List Char) : Bool :=
  !(pyStrip line).isEmpty && !isBlockStart line

/-- The `while i < len(lines)` loop of `_parse_markdown_blocks`, acting on the
remaining lines, with explicit fuel (one unit per loop iteration; `none`
means the fuel ran out before the loop finished). -/
def parseBlocksGo : Nat → List (List Char) → Option (List Block)
  | 0, rem => if rem.isEmpty then some [] else none
  | _ + 1, [] => some []
  | fuel + 1, l :: rest =>
    let line := pyRstrip l
    if line = [] then parseBlocksGo fuel rest
    else
      match headingOf line with
      | some (lv, tx) => (parseBlocksGo fuel rest).map (Block.heading lv tx :: ·)
      | none =>
        if isULMarker line then
          let run := (l :: rest).takeWhile isULMarker
          (parseBlocksGo fuel ((l :: rest).dropWhile isULMarker)).map
            (Block.unorderedList (run.map ulItem) :: ·)
        else if isOLMarker line then
          let run := (l :: rest).takeWhile isOLMarker
          (parseBlocksGo fuel ((l :: rest).dropWhile isOLMarker)).map
            (Block.orderedList (run.map olItem) :: ·)
        else if line.contains '|' then
          let run := (l :: rest).takeWhile tableLinePred
          let rows := (run.filter (fun x => !isSepRow x)).map rowCells
          (parseBlocksGo fuel ((l :: rest).dropWhile tableLinePred)).map
            (fun bs => if rows.isEmpty then bs else Block.table rows :: bs)
        else
          let cont := rest.takeWhile contPred
          (parseBlocksGo fuel (rest.dropWhile contPred)).map
            (Block.paragraph (List.intercalate [' '] (line :: cont.map pyRstrip)) :: ·)

/-- Run the block-parsing loop on a list of lines with the canonical fuel
(one more than the number of lines). -/
def parseBlocksRun (lines : List (List Char)) : Option (List Block) :=
  parseBlocksGo (lines.length + 1) lines

/-- `MarkdownToHWPXConverter._parse_markdown_blocks(text)`. -/
def parseMarkdownBlocks (text : List Char) : Option (List Block) :=
  parseBlocksRun (splitOnChar '\n' text)

/-! ### Inline tokenizer: `_parse_inline_formatting` -/

/-- The `format_type` values of `_parse_inline_formatting`; its docstring
enumerates `'normal'`, `'bold'`, `'italic'`, `'code'` and `'link'`. -/
inductive Fmt
  | normal | bold | italic | code | link
deriving DecidableEq

/-- Index of the first occurrence of `c` in `l` (`None` if absent). -/
def findIdxC (c : Char) : List Char → Option Nat
  | [] => none
  | a :: rest => if a = c then some 0 else (findIdxC c rest).map (· + 1)

/-- Index of the first occurrence of two consecutive `*` characters. -/
def findStarStar : List Char → Option Nat
  | '*' :: '*' :: _ => some 0
  | _ :: rest => (findStarStar rest).map (· + 1)
  | [] => none

/-- Python `text.find(ch, start)` (with `none` in place of `-1`). -/
def pyFindChar (text : List Char) (c : Char) (start : Nat) : Option Nat :=
  (findIdxC c (text.drop start)).map (· + start)

/-- Python `text.find('**', start)` (with `none` in place of `-1`). -/
def pyFindSS (text : List Char) (start : Nat) : Option Nat :=
  (findStarStar (text.drop start)).map (· + start)

/-- Python slice `text[a:b]`. -/
def pySlice (text : List Char) (a b : Nat) : List Char :=
  (text.drop a).take (b - a)

/-- The backtick character. -/
def backtickChar : Char := Char.ofNat 96

/-- Bold branch at position `i` (guarded by `i < len(text) - 1`):
`text[i:i+2] == '**'` and a closing `**` exists.  Returns the emitted
segment and the next scan position, `none` on fall-through. -/
def tryBold (text : List Char) (i : Nat) : Option ((List Char × Fmt) × Nat) :=
  if i + 1 < text.length ∧ text[i]? = some '*' ∧ text[i + 1]? = some '*' then
    (pyFindSS text (i + 2)).map (fun e => ((pySlice text (i + 2) e, Fmt.bold), e + 2))
  else none

/-- Italic branch at position `i` (guarded by `i < len(text) - 1`):
a `*` neither preceded nor followed by `*`, with a closing `*`. -/
def tryItalic (text : List Char) (i : Nat) : Option ((List Char × Fmt) × Nat) :=
  if i + 1 < text.length ∧ text[i]? = some '*' ∧
      (i = 0 ∨ text[i - 1]? ≠ some '*') ∧ text[i + 1]? ≠ some '*' then
    (pyFindChar text '*' (i + 1)).map (fun e => ((pySlice text (i + 1) e, Fmt.italic), e + 1))
  else none

/-- Code branch at position `i`: a backtick with a closing backtick. -/
def tryCode (text : List Char) (i : Nat) : Option ((List Char × Fmt) × Nat) :=
  if text[i]? = some backtickChar then
    (pyFindChar text backtickChar (i + 1)).map
      (fun e => ((pySlice text (i + 1) e, Fmt.code), e + 1))
  else none

/-- Link branch at position `i`: `[`, a closing `]` immediately followed by
`(`, and a closing `)`.  The emitted segment carries the bracket text with
format `'normal'` in the source; the URL is discarded. -/
def tryLink (text : List Char) (i : Nat) : Option ((List Char × Fmt) × Nat) :=
  if text[i]? = some '[' then
    (pyFindChar text ']' (i + 1)).bind (fun eb =>
      if eb + 1 < text.length ∧ text[eb + 1]? = some '(' then
        (pyFindChar text ')' (eb + 2)).map
          (fun e => ((pySlice text (i + 1) eb, Fmt.normal), e + 1))
      else none)
  else none

/-- Is `c` one of the formatting-marker characters `*`, backtick, `[`? -/
def isMarkerChar (c : Char) : Bool :=
  c = '*' || c = backtickChar || c = '['

/-- The scan loop of `_parse_inline_formatting`, with explicit fuel (one unit
per loop iteration).  When all branches fall through and the current
character is itself a marker character, the plain-run step consumes nothing
and the scan position does not advance — exactly as in the source. -/
def goInline (text : List Char) : Nat → Nat → Option (List (List Char × Fmt))
  | 0, i => if i < text.length then none else some []
  | fuel + 1, i =>
    if i < text.length then
      match tryBold text i <|> tryItalic text i <|> tryCode text i <|> tryLink text i with
      | some (seg, i2) => (goInline text fuel i2).map (seg :: ·)
      | none =>
        let j := i + ((text.drop i).takeWhile (fun c => !isMarkerChar c)).length
        if i < j then (goInline text fuel j).map ((pySlice text i j, Fmt.normal) :: ·)
        else goInline text fuel i
    else some []

/-- `MarkdownToHWPXConverter._parse_inline_formatting(text)`, run with fuel
`len(text) + 1` (enough for every terminating run of the source loop, since
every iteration that makes progress advances the position by at least one). -/
def parseInlineFormatting (text : List Char) : Option (List (List Char × Fmt)) :=
  goInline text (text.length + 1) 0

/-! ### `_create_formatted_text_runs` -/

def CHAR_PR_NORMAL : List Char := ['0']
def CHAR_PR_BOLD : List Char := ['1', '0', '0']
def CHAR_PR_ITALIC : List Char := ['1', '0', '1']

/-- Character-property id chosen for a segment's format type
(code and link segments fall back to the normal property). -/
def charPrOf : Fmt → List Char
  | Fmt.bold => CHAR_PR_BOLD
  | Fmt.italic => CHAR_PR_ITALIC
  | _ => CHAR_PR_NORMAL

/-- `_create_formatted_text_runs`, modelled as the list of
`(text, charPrIDRef)` pairs of the text runs it appends: segments with empty
text are skipped (`if not segment_text: continue`). -/
def createFormattedTextRuns (segments : List (List Char × Fmt)) :
    List (List Char × List Char) :=
  segments.filterMap (fun s => if s.1 = [] then none else some (s.1, charPrOf s.2))

/-! ### Spec-side definitions (for refinement comparisons) -/

/-- Spec-side heading predicate, following the spec's words: the line starts
with one to six `#` characters immediately followed by a literal space. -/
def specIsHeading (line : List Char) : Bool :=
  let n := (line.takeWhile (fun c => c = '#')).length
  decide (1 ≤ n) && decide (n ≤ 6) && decide ((line.drop n).head? = some ' ')

/-- Spec-side table rendering, following the spec's words: the first
accumulated row becomes the header, then a separator row of `---` per column,
then the remaining rows, then one blank line; the column count is the maximum
field count across the rows, shorter rows are right-padded with empty cells,
and every cell is trimmed. -/
def specTableRender (rows : List (List (List Char))) : List (List Char) :=
  let cols := (rows.map List.length).foldl max 0
  let padded := rows.map (fun r => (r ++ List.replicate (cols - r.length) []).map pyStrip)
  match padded with
  | [] => []
  | header :: body =>
    mkTableRow header ::
    mkTableRow (List.replicate cols ['-', '-', '-']) ::
    body.map mkTableRow ++ [[]]

/-! ### Helper lemmas -/

theorem dropWhile_head_false {α} {p : α → Bool} (xs : List α) {y : α} {ys : List α}
    (h : List.dropWhile p xs = y :: ys) : p y = false := by
  induction xs with
  | nil => simp [List.dropWhile] at h
  | cons c rest ih =>
    rw [List.dropWhile_cons] at h
    split at h
    · exact ih h
    · rename_i hc
      cases h
      simpa using hc

theorem length_dropWhile_le {α} (p : α → Bool) (xs : List α) :
    (List.dropWhile p xs).length ≤ xs.length := by
  induction xs with
  | nil => simp
  | cons c rest ih =>
    rw [List.dropWhile_cons]
    split
    · exact Nat.le_succ_of_le ih
    · exact Nat.le_refl _

/-- Every list is its own `pyRstrip` followed by a whitespace suffix. -/
theorem pyRstrip_append (l : List Char) :
    ∃ suf, l = pyRstrip l ++ suf ∧ ∀ c ∈ suf, isPySpace c = true := by
  refine ⟨(List.takeWhile isPySpace l.reverse).reverse, ?_, ?_⟩
  · conv_lhs => rw [← l.reverse_reverse, ← List.takeWhile_append_dropWhile isPySpace l.reverse]
    rw [List.reverse_append]
    rfl
  · intro c hc
    exact List.mem_takeWhile_imp (List.mem_reverse.mp hc)

theorem pyRstrip_ne_nil_strip {l : List Char} (h : pyRstrip l ≠ []) : pyStrip l ≠ [] := by
  intro hs
  have hall : ∀ x ∈ pyRstrip l, isPySpace x = true := List.dropWhile_eq_nil_iff.mp hs
  have hd : l.reverse.dropWhile isPySpace ≠ [] := by
    intro hnil
    exact h (by simp [pyRstrip, hnil])
  obtain ⟨y, ys, hys⟩ := List.exists_cons_of_ne_nil hd
  have hy : isPySpace y = false := dropWhile_head_false l.reverse hys
  have hmem : y ∈ pyRstrip l := by
    unfold pyRstrip
    rw [hys]
    simp
  rw [hall y hmem] at hy
  exact Bool.noConfusion hy

theorem mem_of_mem_pyRstrip {c : Char} {l : List Char} (h : c ∈ pyRstrip l) : c ∈ l := by
  obtain ⟨suf, hl, -⟩ := pyRstrip_append l
  rw [hl]
  exact List.mem_append_left _ h

theorem isULMarker_of_pyRstrip {l : List Char} (h : isULMarker (pyRstrip l) = true) :
    isULMarker l = true := by
  obtain ⟨suf, hl, -⟩ := pyRstrip_append l
  match hr : pyRstrip l with
  | [] => rw [hr] at h; simp [isULMarker] at h
  | [a] => rw [hr] at h; simp [isULMarker] at h
  | a :: b :: t => rw [hr] at hl; rw [hl]; rw [hr] at h; exact h

theorem olScan_append {seen : Bool} {A : List Char} (B : List Char)
    (h : olScan seen A = true) : olScan seen (A ++ B) = true := by
  induction A generalizing seen with
  | nil => simp [olScan] at h
  | cons c rest ih =>
    rw [List.cons_append]
    simp only [olScan] at h ⊢
    split at h
    next hd =>
      rw [if_pos hd]
      exact ih h
    next hd =>
      split at h
      next hdot =>
        rw [if_neg hd, if_pos hdot]
        rcases Bool.and_eq_true_iff.mp h with ⟨hseen, hrest⟩
        have hsw : startsWithSpace (rest ++ B) = true := by
          match rest with
          | [] => simp [startsWithSpace] at hrest
          | s :: rest2 => simpa [startsWithSpace] using hrest
        simp [hseen, hsw]
      next hdot => exact absurd h (by simp)

theorem isOLMarker_of_pyRstrip {l : List Char} (h : isOLMarker (pyRstrip l) = true) :
    isOLMarker l = true := by
  obtain ⟨suf, hl, -⟩ := pyRstrip_append l
  rw [hl]
  exact olScan_append suf h

theorem contains_of_mem_pyRstrip {c : Char} {l : List Char}
    (h : (pyRstrip l).contains c = true) : l.contains c = true :=
  List.elem_iff.mpr (mem_of_mem_pyRstrip (List.elem_iff.mp h))

theorem isSome_option_map {α β} (f : α → β) (o : Option α) :
    (o.map f).isSome = o.isSome := by
  cases o <;> rfl

/-! ### C10: the block parser terminates on every input -/

theorem parseBlocksGo_isSome :
    ∀ (fuel : Nat) (rem : List (List Char)), rem.length < fuel →
      (parseBlocksGo fuel rem).isSome = true := by
  intro fuel
  induction fuel with
  | zero => intro rem h; exact absurd h (Nat.not_lt_zero _)
  | succ n ih =>
    intro rem h
    match rem with
    | [] => rfl
    | l :: rest =>
      have hrest : rest.length < n := by
        have h' : rest.length + 1 < n + 1 := by simpa using h
        omega
      have hdw : ∀ (p : List Char → Bool) (hp : p l = true),
          (List.dropWhile p (l :: rest)).length < n := by
        intro p hp
        rw [List.dropWhile_cons, if_pos hp]
        exact Nat.lt_of_le_of_lt (length_dropWhile_le _ _) hrest
      simp only [parseBlocksGo]
      split
      next hblank => exact ih rest hrest
      next hline =>
        split
        next lv tx heq =>
          rw [isSome_option_map]
          exact ih rest hrest
        next heq =>
          split
          next hul =>
            rw [isSome_option_map]
            exact ih _ (hdw _ (isULMarker_of_pyRstrip hul))
          next hul =>
            split
            next hol =>
              rw [isSome_option_map]
              exact ih _ (hdw _ (isOLMarker_of_pyRstrip hol))
            next hol =>
              split
              next hpipe =>
                rw [isSome_option_map]
                refine ih _ (hdw _ ?_)
                unfold tableLinePred
                rw [Bool.and_eq_true_iff]
                constructor
                · simpa using pyRstrip_ne_nil_strip hline
                · exact contains_of_mem_pyRstrip hpipe
              next hpipe =>
                rw [isSome_option_map]
                exact ih _ (Nat.lt_of_le_of_lt (length_dropWhile_le _ _) hrest)

/-- C10: the Markdown block parser never fails: for every input string the
scan loop of `_parse_markdown_blocks` finishes within its canonical fuel
(one unit per line plus one) and returns a list of blocks. -/
theorem parse_markdown_blocks_total (text : List Char) :
    (parseMarkdownBlocks text).isSome = true :=
  parseBlocksGo_isSome _ _ (Nat.lt_succ_self _)

/-! ### C1, C2: the two behaviours the spec requires but the code breaks -/

/-- C1: `format_text` is not idempotent.  The merge loop joins lines only in
pairs per pass, so on four plain lines one application yields two half-merged
lines and a second application merges further, contradicting the contract
that one application reaches a fixpoint (the loop's own comment says single
line breaks within a paragraph are converted to spaces, yet its output still
contains one). -/
theorem format_text_not_idempotent :
    formatText (formatText ("a\nb\nc\nd".data) true false) true false ≠
      formatText ("a\nb\nc\nd".data) true false ∧
    formatText ("a\nb\nc\nd".data) true false = "a b\nc d\n".data ∧
    formatText (formatText ("a\nb\nc\nd".data) true false) true false = "a b c d\n".data :=
  ⟨by decide, by decide, by decide⟩

/-- C2: on the spec's own malformed example, the scan loop of
`_parse_inline_formatting` never terminates: the bold branch finds no closing
marker, every other branch falls through, and the plain-run step consumes
nothing because the current character is itself a marker — so no amount of
fuel completes the loop. -/
theorem parse_inline_diverges_unmatched_bold :
    ∀ fuel, goInline ("**unterminated".data) fuel 0 = none := by
  intro fuel
  induction fuel with
  | zero => rfl
  | succ n ih =>
    rw [show goInline ("**unterminated".data) (n + 1) 0 =
          goInline ("**unterminated".data) n 0 from rfl]
    exact ih

/-! ### C4: empty segments -/

/-- C4 counterexample: the tokenizer itself does emit a zero-length segment —
on `"****"` the bold branch finds the closing `**` immediately and appends
the empty bold segment. -/
theorem parse_inline_emits_empty_segment :
    parseInlineFormatting ("****".data) = some [(([] : List Char), Fmt.bold)] := by
  decide

/-- C4 amended: empty segments are dropped not by the tokenizer but by its
consumer: every text run created by `_create_formatted_text_runs` has
non-empty text, and the empty bold segment produced from `"****"` yields no
run at all. -/
theorem text_runs_skip_empty_segments :
    (∀ segments, ((createFormattedTextRuns segments).all (fun r => !r.1.isEmpty)) = true) ∧
    createFormattedTextRuns [(([] : List Char), Fmt.bold)] = [] := by
  constructor
  · intro segments
    induction segments with
    | nil => rfl
    | cons s rest ih =>
      unfold createFormattedTextRuns at ih ⊢
      rw [List.filterMap_cons]
      by_cases hs : s.1 = []
      · rw [if_pos hs]
        exact ih
      · rw [if_neg hs, List.all_cons, ih, Bool.and_true]
        cases h1 : s.1 with
        | nil => exact absurd h1 hs
        | cons a tl => rfl
  · rfl

/-! ### C9: trailing-newline postcondition -/

theorem dropWhile_dropWhile {α} (p : α → Bool) (xs : List α) :
    List.dropWhile p (List.dropWhile p xs) = List.dropWhile p xs := by
  cases h : List.dropWhile p xs with
  | nil => rfl
  | cons y ys =>
    have hy := dropWhile_head_false xs h
    rw [List.dropWhile_cons, if_neg (by simp [hy])]

theorem pyRstrip_idem (l : List Char) : pyRstrip (pyRstrip l) = pyRstrip l := by
  unfold pyRstrip
  rw [List.reverse_reverse, dropWhile_dropWhile]

theorem startsWithSpace_reverse_pyRstrip (l : List Char) :
    startsWithSpace (pyRstrip l).reverse = false := by
  unfold pyRstrip
  rw [List.reverse_reverse]
  cases h : List.dropWhile isPySpace l.reverse with
  | nil => rfl
  | cons y ys => simpa [startsWithSpace] using dropWhile_head_false l.reverse h

/-- C9 counterexample: on the empty input `format_text` returns the empty
string, which is not of the form `s ++ "\n"` — so the returned string does
not always end with a newline. -/
theorem format_text_empty_input_no_newline :
    formatText [] true false = [] ∧ ∀ s : List Char, s ++ ['\n'] ≠ [] :=
  ⟨rfl, by simp⟩

/-- C9 amended: for every NON-EMPTY input and any flags, the result of
`format_text` is a string with no trailing whitespace followed by exactly one
newline (the part before the final newline is `rstrip`-fixed and does not end
in whitespace). -/
theorem format_text_trailing_newline (t : List Char) (ft pl : Bool) (h : t ≠ []) :
    ∃ s, formatText t ft pl = s ++ ['\n'] ∧ pyRstrip s = s ∧
      startsWithSpace s.reverse = false := by
  unfold formatText
  rw [if_neg h]
  exact ⟨_, rfl, pyRstrip_idem _, startsWithSpace_reverse_pyRstrip _⟩

/-- Witness for C9: the amended theorem applied at the concrete input `"a"`. -/
theorem format_text_trailing_newline_witness :
    ∃ s, formatText ("a".data) true false = s ++ ['\n'] ∧ pyRstrip s = s ∧
      startsWithSpace s.reverse = false :=
  format_text_trailing_newline ("a".data) true false (by decide)

/-! ### C3: link tokenization -/

theorem findIdxC_append_first (c : Char) (A B : List Char) (h : c ∉ A) :
    findIdxC c (A ++ c :: B) = some A.length := by
  induction A with
  | nil => simp [findIdxC]
  | cons a rest ih =>
    have ha : ¬ a = c := fun e => h (by rw [e]; exact List.mem_cons_self c rest)
    rw [List.cons_append, findIdxC, if_neg ha,
      ih (fun hm => h (List.mem_cons_of_mem a hm))]
    simp

theorem goInline_at_end (text : List Char) (fuel i : Nat) (h : ¬ i < text.length) :
    goInline text fuel i = some [] := by
  cases fuel with
  | zero => simp [goInline, h]
  | succ n => simp [goInline, h]

/-- One iteration of the scan loop that emits a segment via one of the four
marker branches and continues at position `i2`. -/
theorem goInline_step_emit (text : List Char) (fuel i : Nat) (seg : List Char × Fmt) (i2 : Nat)
    (hi : i < text.length)
    (hc : (tryBold text i <|> tryItalic text i <|> tryCode text i <|> tryLink text i) =
      some (seg, i2)) :
    goInline text (fuel + 1) i = (goInline text fuel i2).map (seg :: ·) := by
  rw [goInline, if_pos hi, hc]

/-- C3 amended: for a complete link shape `[t](u)` (no stray `]` in the bracket
text, no stray `)` in the URL), the tokenizer emits exactly one segment: the
bracket text with format `'normal'` — not a dedicated link format — and the
URL is discarded. -/
theorem link_tokenization (t u : List Char) (ht : ']' ∉ t) (hu : ')' ∉ u) :
    parseInlineFormatting ('[' :: (t ++ (']' :: '(' :: (u ++ [')'])))) =
      some [(t, Fmt.normal)] := by
  have hlen : ('[' :: (t ++ (']' :: '(' :: (u ++ [')'])))).length =
      t.length + u.length + 4 := by
    simp [List.length_append]
    omega
  have h0 : ('[' :: (t ++ (']' :: '(' :: (u ++ [')']))))[0]? = some '[' := by simp
  have hbold : tryBold ('[' :: (t ++ (']' :: '(' :: (u ++ [')'])))) 0 = none := by
    unfold tryBold
    rw [if_neg]
    rintro ⟨-, hx, -⟩
    rw [h0] at hx
    simp at hx
  have hital : tryItalic ('[' :: (t ++ (']' :: '(' :: (u ++ [')'])))) 0 = none := by
    unfold tryItalic
    rw [if_neg]
    rintro ⟨-, hx, -⟩
    rw [h0] at hx
    simp at hx
  have hcode : tryCode ('[' :: (t ++ (']' :: '(' :: (u ++ [')'])))) 0 = none := by
    unfold tryCode
    rw [if_neg]
    intro hx
    rw [h0] at hx
    simp [backtickChar] at hx
  have hdrop1 : ('[' :: (t ++ (']' :: '(' :: (u ++ [')'])))).drop 1 =
      t ++ (']' :: '(' :: (u ++ [')'])) := rfl
  have hfind1 : pyFindChar ('[' :: (t ++ (']' :: '(' :: (u ++ [')'])))) ']' 1 =
      some (t.length + 1) := by
    unfold pyFindChar
    rw [hdrop1, findIdxC_append_first ']' t _ ht]
    rfl
  have hshape2 : '[' :: (t ++ (']' :: '(' :: (u ++ [')']))) =
      ('[' :: t ++ [']']) ++ '(' :: (u ++ [')']) := by simp
  have hat : ('[' :: (t ++ (']' :: '(' :: (u ++ [')']))))[t.length + 2]? = some '(' := by
    rw [hshape2, List.getElem?_append_right (by simp)]
    simp
  have hshape3 : '[' :: (t ++ (']' :: '(' :: (u ++ [')']))) =
      ('[' :: t ++ [']', '(']) ++ (u ++ [')']) := by simp
  have hlen3 : t.length + 3 = ('[' :: t ++ [']', '(']).length + 0 := by simp
  have hfind2 : pyFindChar ('[' :: (t ++ (']' :: '(' :: (u ++ [')'])))) ')' (t.length + 3) =
      some (u.length + (t.length + 3)) := by
    unfold pyFindChar
    rw [hshape3, hlen3, List.drop_append 0, List.drop_zero,
      show u ++ [')'] = u ++ ')' :: [] from rfl, findIdxC_append_first ')' u [] hu]
    simp
  have hslice : pySlice ('[' :: (t ++ (']' :: '(' :: (u ++ [')'])))) 1 (t.length + 1) = t := by
    unfold pySlice
    rw [hdrop1, Nat.add_sub_cancel]
    exact List.take_left t _
  have hlink : tryLink ('[' :: (t ++ (']' :: '(' :: (u ++ [')'])))) 0 =
      some ((t, Fmt.normal), u.length + (t.length + 3) + 1) := by
    unfold tryLink
    rw [if_pos h0, hfind1, Option.some_bind]
    rw [if_pos ⟨by rw [hlen]; omega, hat⟩]
    rw [show t.length + 1 + 2 = t.length + 3 from rfl, hfind2]
    simp [hslice]
  unfold parseInlineFormatting
  rw [show ('[' :: (t ++ (']' :: '(' :: (u ++ [')'])))).length + 1 =
    ('[' :: (t ++ (']' :: '(' :: (u ++ [')'])))).length + 1 from rfl]
  rw [goInline_step_emit _ _ 0 (t, Fmt.normal) (u.length + (t.length + 3) + 1)
    (by rw [hlen]; omega)
    (by rw [hbold, hital, hcode, hlink]; simp only [Option.none_orElse])]
  rw [goInline_at_end _ _ _ (by rw [hlen]; omega)]
  rfl

/-- Witness for C3: the amended theorem applied at the spec's example
`"[text](http://x)"`. -/
theorem link_tokenization_witness :
    parseInlineFormatting ("[text](http://x)".data) = some [("text".data, Fmt.normal)] := by
  have h := link_tokenization ("text".data) ("http://x".data) (by decide) (by decide)
  have hs : '[' :: ("text".data ++ (']' :: '(' :: ("http://x".data ++ [')']))) =
      "[text](http://x)".data := by decide
  rw [hs] at h
  exact h

/-- C3 counterexample: on `"[text](http://x)"` the emitted segment's format is
`'normal'`, not the spec's `LinkText` — no `'link'`-formatted segment is
produced. -/
theorem link_segment_not_link_format :
    parseInlineFormatting ("[text](http://x)".data) ≠ some [("text".data, Fmt.link)] ∧
    parseInlineFormatting ("[text](http://x)".data) = some [("text".data, Fmt.normal)] :=
  ⟨by decide, by decide⟩

/-! ### Branch-step equations of the block-parsing loop -/

theorem parseGo_heading_step {l : List Char} {lv : Nat} {tx : List Char}
    (fuel : Nat) (rest : List (List Char))
    (hne : ¬ pyRstrip l = []) (h : headingOf (pyRstrip l) = some (lv, tx)) :
    parseBlocksGo (fuel + 1) (l :: rest) =
      (parseBlocksGo fuel rest).map (Block.heading lv tx :: ·) := by
  simp only [parseBlocksGo]
  rw [if_neg hne, h]

theorem parseGo_ul_step {l : List Char} (fuel : Nat) (rest : List (List Char))
    (hne : ¬ pyRstrip l = []) (hh : headingOf (pyRstrip l) = none)
    (hul : isULMarker (pyRstrip l) = true) :
    parseBlocksGo (fuel + 1) (l :: rest) =
      (parseBlocksGo fuel ((l :: rest).dropWhile isULMarker)).map
        (Block.unorderedList (((l :: rest).takeWhile isULMarker).map ulItem) :: ·) := by
  simp only [parseBlocksGo]
  rw [if_neg hne, hh, if_pos hul]

theorem parseGo_ol_step {l : List Char} (fuel : Nat) (rest : List (List Char))
    (hne : ¬ pyRstrip l = []) (hh : headingOf (pyRstrip l) = none)
    (hul : ¬ isULMarker (pyRstrip l) = true)
    (hol : isOLMarker (pyRstrip l) = true) :
    parseBlocksGo (fuel + 1) (l :: rest) =
      (parseBlocksGo fuel ((l :: rest).dropWhile isOLMarker)).map
        (Block.orderedList (((l :: rest).takeWhile isOLMarker).map olItem) :: ·) := by
  simp only [parseBlocksGo]
  rw [if_neg hne, hh, if_neg hul, if_pos hol]

theorem parseGo_table_step {l : List Char} (fuel : Nat) (rest : List (List Char))
    (hne : ¬ pyRstrip l = []) (hh : headingOf (pyRstrip l) = none)
    (hul : ¬ isULMarker (pyRstrip l) = true)
    (hol : ¬ isOLMarker (pyRstrip l) = true)
    (hpipe : (pyRstrip l).contains '|' = true) :
    parseBlocksGo (fuel + 1) (l :: rest) =
      (parseBlocksGo fuel ((l :: rest).dropWhile tableLinePred)).map
        (fun bs =>
          if ((((l :: rest).takeWhile tableLinePred).filter
                (fun x => !isSepRow x)).map rowCells).isEmpty then bs
          else Block.table ((((l :: rest).takeWhile tableLinePred).filter
                (fun x => !isSepRow x)).map rowCells) :: bs) := by
  simp only [parseBlocksGo]
  rw [if_neg hne, hh, if_neg hul, if_neg hol, if_pos hpipe]

theorem parseGo_para_step {l : List Char} (fuel : Nat) (rest : List (List Char))
    (hne : ¬ pyRstrip l = []) (hh : headingOf (pyRstrip l) = none)
    (hul : ¬ isULMarker (pyRstrip l) = true)
    (hol : ¬ isOLMarker (pyRstrip l) = true)
    (hpipe : ¬ (pyRstrip l).contains '|' = true) :
    parseBlocksGo (fuel + 1) (l :: rest) =
      (parseBlocksGo fuel (rest.dropWhile contPred)).map
        (Block.paragraph (List.intercalate [' ']
          (pyRstrip l :: (rest.takeWhile contPred).map pyRstrip)) :: ·) := by
  simp only [parseBlocksGo]
  rw [if_neg hne, hh, if_neg hul, if_neg hol, if_neg hpipe]

/-! ### C5: heading recognition -/

theorem headingOf_some_spec {s : List Char} {lv : Nat} {tx : List Char}
    (h : headingOf s = some (lv, tx)) :
    specIsHeading s = true ∧ lv = (s.takeWhile (fun c => c = '#')).length ∧
      tx = pyStrip (s.drop (s.takeWhile (fun c => c = '#')).length) := by
  unfold headingOf at h
  split at h

  next hhash =>
    split at h
    next hcond =>
      injection h with h1
      injection h1 with hlv htx
      subst hlv
      subst htx
      refine ⟨?_, rfl, rfl⟩
      have h1le : 1 ≤ (s.takeWhile (fun c => c = '#')).length := by
        cases s with
        | nil => simp at hhash
        | cons a s2 =>
          have ha : a = '#' := by simpa using hhash
          subst ha
          simp [List.takeWhile_cons]
      rcases Bool.and_eq_true_iff.mp hcond with ⟨h6, hsp⟩
      unfold specIsHeading
      simp only [Bool.and_eq_true, decide_eq_true_eq]
      exact ⟨⟨h1le, by simpa using h6⟩, by simpa using hsp⟩
    next hcond => exact absurd h (by simp)
  next hhash => exact absurd h (by simp)

theorem headingOf_of_spec {s : List Char} (h : specIsHeading s = true) :
    headingOf s = some ((s.takeWhile (fun c => c = '#')).length,
      pyStrip (s.drop (s.takeWhile (fun c => c = '#')).length)) := by
  unfold specIsHeading at h
  simp only [Bool.and_eq_true, decide_eq_true_eq] at h
  obtain ⟨⟨h1, h6⟩, hsp⟩ := h
  have hhash : s.head? = some '#' := by
    cases s with
    | nil => simp at h1
    | cons a s2 =>
      by_cases ha : a = '#'
      · simp [ha]
      · rw [List.takeWhile_cons, if_neg (by simpa using ha)] at h1
        simp at h1
  unfold headingOf
  rw [if_pos hhash, if_pos (by simp [h6, hsp])]

theorem headingOf_none_of_not_spec {s : List Char} (h : ¬ specIsHeading s = true) :
    headingOf s = none := by
  cases hc : headingOf s with
  | none => rfl
  | some p =>
    obtain ⟨p1, p2⟩ := p
    obtain ⟨hspec, -, -⟩ := headingOf_some_spec hc
    exact absurd hspec h

/-- C5: a single-line document yields a Heading block iff the line (after
rstrip) starts with one to six hashes followed by a literal space; the level
is the hash-run length and the text the stripped remainder; and the two
concrete examples of the spec. -/
theorem heading_recognition :
    (∀ l : List Char, pyRstrip l ≠ [] →
      ((∃ lv tx, parseBlocksRun [l] = some [Block.heading lv tx]) ↔
        specIsHeading (pyRstrip l) = true) ∧
      (∀ lv tx, parseBlocksRun [l] = some [Block.heading lv tx] →
        lv = ((pyRstrip l).takeWhile (fun c => c = '#')).length ∧
        tx = pyStrip ((pyRstrip l).drop lv))) ∧
    parseMarkdownBlocks ("### Title".data) = some [Block.heading 3 ("Title".data)] ∧
    parseMarkdownBlocks ("####### X".data) = some [Block.paragraph ("####### X".data)] := by
  refine ⟨?_, by decide, by decide⟩
  intro l hl
  have hfuel : parseBlocksRun [l] = parseBlocksGo (1 + 1) [l] := rfl
  by_cases hh : specIsHeading (pyRstrip l) = true
  · have hsome := headingOf_of_spec hh
    have hrun : parseBlocksRun [l] = some [Block.heading
        ((pyRstrip l).takeWhile (fun c => c = '#')).length
        (pyStrip ((pyRstrip l).drop ((pyRstrip l).takeWhile (fun c => c = '#')).length))] := by
      rw [hfuel, parseGo_heading_step 1 [] hl hsome]
      rfl
    constructor
    · exact ⟨fun _ => hh, fun _ => ⟨_, _, hrun⟩⟩
    · intro lv tx hp
      rw [hrun] at hp
      simp only [Option.some.injEq, List.cons.injEq, Block.heading.injEq] at hp
      obtain ⟨⟨hlv, htx⟩, -⟩ := hp
      subst hlv
      exact ⟨rfl, htx.symm⟩
  · have hnone := headingOf_none_of_not_spec hh
    have hnotHeading : ∀ lv tx, parseBlocksRun [l] ≠ some [Block.heading lv tx] := by
      by_cases hul : isULMarker (pyRstrip l) = true
      · intro lv tx hp
        rw [hfuel, parseGo_ul_step 1 [] hl hnone hul] at hp
        cases ho : parseBlocksGo 1 (List.dropWhile isULMarker [l]) with
        | none => rw [ho] at hp; simp at hp
        | some bs => rw [ho] at hp; simp at hp
      · by_cases hol : isOLMarker (pyRstrip l) = true
        · intro lv tx hp
          rw [hfuel, parseGo_ol_step 1 [] hl hnone hul hol] at hp
          cases ho : parseBlocksGo 1 (List.dropWhile isOLMarker [l]) with
          | none => rw [ho] at hp; simp at hp
          | some bs => rw [ho] at hp; simp at hp
        · by_cases hpipe : (pyRstrip l).contains '|' = true
          · intro lv tx hp
            have hpred : tableLinePred l = true := by
              unfold tableLinePred
              rw [Bool.and_eq_true_iff]
              exact ⟨by simpa using pyRstrip_ne_nil_strip hl, contains_of_mem_pyRstrip hpipe⟩
            rw [hfuel, parseGo_table_step 1 [] hl hnone hul hol hpipe] at hp
            rw [show List.dropWhile tableLinePred [l] = [] from
              by simp [List.dropWhile_cons, hpred]] at hp
            rw [show parseBlocksGo 1 [] = some [] from rfl] at hp
            rw [show Option.map (fun bs => if (((List.takeWhile tableLinePred [l]).filter
                  (fun x => !isSepRow x)).map rowCells).isEmpty then bs
                else Block.table (((List.takeWhile tableLinePred [l]).filter
                  (fun x => !isSepRow x)).map rowCells) :: bs) (some []) =
              some (if (((List.takeWhile tableLinePred [l]).filter
                  (fun x => !isSepRow x)).map rowCells).isEmpty then []
                else [Block.table (((List.takeWhile tableLinePred [l]).filter
                  (fun x => !isSepRow x)).map rowCells)]) from rfl] at hp
            split at hp <;> simp at hp
          · intro lv tx hp
            rw [hfuel, parseGo_para_step 1 [] hl hnone hul hol hpipe] at hp
            rw [show List.dropWhile contPred ([] : List (List Char)) = [] from rfl] at hp
            rw [show parseBlocksGo 1 [] = some [] from rfl] at hp
            simp at hp
    constructor
    · constructor
      · rintro ⟨lv, tx, hp⟩
        exact absurd hp (hnotHeading lv tx)
      · intro hspec
        exact absurd hspec hh
    · intro lv tx hp
      exact absurd hp (hnotHeading lv tx)

/-- Witness for C5: the heading equivalence applied at the line `"### Title"`. -/
theorem heading_recognition_witness :
    (∃ lv tx, parseBlocksRun [("### Title".data)] = some [Block.heading lv tx]) :=
  ((heading_recognition.1 ("### Title".data) (by decide)).1).mpr (by decide)

/-! ### C6: Markdown table parsing -/

theorem parseBlocksGo_nil (fuel : Nat) : parseBlocksGo fuel [] = some [] := by
  cases fuel <;> rfl

theorem mem_pyRstrip_of_not_space {c : Char} {l : List Char}
    (hc : isPySpace c = false) (h : c ∈ l) : c ∈ pyRstrip l := by
  obtain ⟨suf, hl, hsuf⟩ := pyRstrip_append l
  rw [hl] at h
  rcases List.mem_append.mp h with h1 | h2
  · exact h1
  · rw [hsuf c h2] at hc
    exact Bool.noConfusion hc

/-- C6 amended: a maximal table run (every line non-blank and containing a
pipe, with the first line matching no earlier block predicate) is consumed in
one step; lines matching the separator-row regexp are skipped, every other
line is split on pipes with the outer fragments dropped and cells stripped;
a table block is emitted iff at least one row survives. -/
theorem table_run_parsing :
    (∀ (l : List Char) (rest : List (List Char)) (fuel : Nat),
      (l :: rest).all tableLinePred = true →
      headingOf (pyRstrip l) = none →
      isULMarker (pyRstrip l) = false →
      isOLMarker (pyRstrip l) = false →
      parseBlocksGo (fuel + 1) (l :: rest) =
        some (if (((l :: rest).filter (fun x => !isSepRow x)).map rowCells).isEmpty
          then []
          else [Block.table (((l :: rest).filter (fun x => !isSepRow x)).map rowCells)])) ∧
    parseMarkdownBlocks ("| A | B |\n|---|---|\n| 1 | 2 |".data) =
      some [Block.table [["A".data, "B".data], ["1".data, "2".data]]] := by
  constructor
  · intro l rest fuel hall hh hul hol
    have hallm : ∀ x ∈ l :: rest, tableLinePred x = true := by
      intro x hx
      exact List.all_eq_true.mp hall x hx
    have hpl : tableLinePred l = true := hallm l (List.mem_cons_self l rest)
    rcases Bool.and_eq_true_iff.mp hpl with ⟨hstrip, hcont⟩
    have hstrip2 : pyStrip l ≠ [] := by simpa using hstrip
    have hrne : pyRstrip l ≠ [] := by
      intro hr
      exact hstrip2 (by simp [pyStrip, hr, List.dropWhile])
    have hpipe : (pyRstrip l).contains '|' = true := by
      apply List.elem_iff.mpr
      exact mem_pyRstrip_of_not_space (by decide) (List.elem_iff.mp hcont)
    rw [parseGo_table_step fuel rest hrne hh (by simp [hul]) (by simp [hol]) hpipe]
    rw [List.dropWhile_eq_nil_iff.mpr hallm, List.takeWhile_eq_self_iff.mpr hallm]
    rw [parseBlocksGo_nil]
    rfl
  · decide

/-- Witness for C6: the run theorem applied at the spec's three-line table. -/
theorem table_run_parsing_witness :
    parseBlocksGo 4 ["| A | B |".data, "|---|---|".data, "| 1 | 2 |".data] =
      some [Block.table [["A".data, "B".data], ["1".data, "2".data]]] := by
  have h := table_run_parsing.1 ("| A | B |".data) ["|---|---|".data, "| 1 | 2 |".data] 3
    (by decide) (by decide) (by decide) (by decide)
  rw [h]
  decide

/-- C6 counterexample: the line `"-|-"` consists purely of `|` and `-`
characters, yet it is NOT matched by the separator-row regexp (which requires
the line to start and end with a pipe), so instead of being skipped it
contributes an empty row to the table. -/
theorem separator_skip_counterexample :
    ("-|-".data).all (fun c => c = '|' || c = '-' || isPySpace c) = true ∧
    isSepRow ("-|-".data) = false ∧
    parseMarkdownBlocks ("-|-".data) = some [Block.table [[]]] :=
  ⟨by decide, by decide, by decide⟩

/-! ### C8: paragraph continuation -/

/-- C8 amended: when a paragraph starts (the first line is non-blank and
matches none of the heading / list / table predicates on its rstripped form),
the parser consumes subsequent raw lines that are non-blank and do not
satisfy `_is_block_start` — whose heading test is the COARSER
`line.startswith('#')` — and joins them with single spaces; and the coarse
predicate differs from the heading-parse predicate on `"#tag"`. -/
theorem paragraph_continuation :
    (∀ (l : List Char) (rest : List (List Char)) (fuel : Nat),
      pyRstrip l ≠ [] →
      headingOf (pyRstrip l) = none →
      isULMarker (pyRstrip l) = false →
      isOLMarker (pyRstrip l) = false →
      (pyRstrip l).contains '|' = false →
      parseBlocksGo (fuel + 1) (l :: rest) =
        (parseBlocksGo fuel (rest.dropWhile contPred)).map
          (Block.paragraph (List.intercalate [' ']
            (pyRstrip l :: (rest.takeWhile contPred).map pyRstrip)) :: ·)) ∧
    (∀ line : List Char, contPred line =
      (!(pyStrip line).isEmpty && !(line.head? = some '#' || isULMarker line ||
        isOLMarker line || line.contains '|'))) ∧
    isBlockStart ("#tag".data) = true ∧ specIsHeading ("#tag".data) = false := by
  refine ⟨?_, fun line => rfl, by decide, by decide⟩
  intro l rest fuel hrne hh hul hol hpipe
  exact parseGo_para_step fuel rest hrne hh (by simp [hul]) (by simp [hol]) (by rw [hpipe]; simp)

/-- Witness for C8: the continuation theorem applied at `"x"` followed by
`"#tag"`: the latter starts with `#` but is not a heading, and it terminates
the paragraph instead of being joined into it. -/
theorem paragraph_continuation_witness :
    parseBlocksGo 3 ["x".data, "#tag".data] =
      some [Block.paragraph ("x".data), Block.paragraph ("#tag".data)] := by
  have h := paragraph_continuation.1 ("x".data) ["#tag".data] 2
    (by decide) (by decide) (by decide) (by decide) (by decide)
  rw [h]
  decide

/-- C8 counterexample: `"#tag"` is non-blank and matches NONE of the
earlier-step block predicates (heading needs a space after the hashes, and it
is no list line and contains no pipe), yet the parser does not join it into
the preceding paragraph: `"x\n#tag"` parses as two paragraphs, not one. -/
theorem paragraph_continuation_counterexample :
    parseMarkdownBlocks ("x\n#tag".data) =
      some [Block.paragraph ("x".data), Block.paragraph ("#tag".data)] ∧
    parseMarkdownBlocks ("x\n#tag".data) ≠ some [Block.paragraph ("x #tag".data)] ∧
    pyStrip ("#tag".data) ≠ [] ∧
    specIsHeading ("#tag".data) = false ∧
    isULMarker ("#tag".data) = false ∧
    isOLMarker ("#tag".data) = false ∧
    ("#tag".data).contains '|' = false :=
  ⟨by decide, by decide, by decide, by decide, by decide, by decide, by decide⟩

/-! ### C7: heuristic table detection and rendering (direction A) -/

theorem le_foldl_max_init (l : List Nat) (a : Nat) : a ≤ l.foldl max a := by
  induction l generalizing a with
  | nil => exact Nat.le_refl _
  | cons b t ih => exact Nat.le_trans (Nat.le_max_left a b) (ih (max a b))

theorem mem_le_foldl_max {x : Nat} (l : List Nat) (a : Nat) (h : x ∈ l) :
    x ≤ l.foldl max a := by
  induction l generalizing a with
  | nil => simp at h
  | cons b t ih =>
    rcases List.mem_cons.mp h with rfl | hm
    · exact Nat.le_trans (Nat.le_max_right a x) (le_foldl_max_init t (max a x))
    · exact ih (max a b) hm

theorem createMarkdownTable_eq_spec (rows : List (List (List Char))) :
    createMarkdownTable rows = specTableRender rows := by
  unfold createMarkdownTable specTableRender
  by_cases h : rows = []
  · subst h
    rfl
  · rw [if_neg h]
    obtain ⟨r0, rs, rfl⟩ := List.exists_cons_of_ne_nil h
    simp only [List.map_cons]
    have hr0 : r0.length ≤ List.foldl max 0 (r0.length :: List.map List.length rs) :=
      mem_le_foldl_max _ _ (List.mem_cons_self _ _)
    have hlen : (List.map pyStrip (r0 ++ List.replicate
        (List.foldl max 0 (r0.length :: List.map List.length rs) - r0.length) [])).length =
        List.foldl max 0 (r0.length :: List.map List.length rs) := by
      rw [List.length_map, List.length_append, List.length_replicate]
      omega
    rw [List.map_const', hlen]

theorem formatTablesGo_group (g : List (List Char)) (rest : List (List Char))
    (acc : List (List (List Char)))
    (hg : g.all (fun x => !(pyStrip x).isEmpty && isTableCandidate x) = true)
    (hrest : rest = [] ∨ ∃ r rest2, rest = r :: rest2 ∧
      (pyStrip r = [] ∨ isTableCandidate r = false)) :
    formatTablesGo (g ++ rest) true acc =
      createMarkdownTable (acc ++ g.map (splitOnChar '\t')) ++ formatTablesGo rest false [] := by
  induction g generalizing acc with
  | nil =>
    rcases hrest with h | ⟨r, rest2, rfl, hr⟩
    · subst h
      by_cases ha : acc = []
      · subst ha
        rfl
      · have hne : acc.isEmpty = false := by
          cases acc with
          | nil => exact absurd rfl ha
          | cons a t => rfl
        simp [formatTablesGo, hne]
    · rcases hr with hblank | hnc
      · simp [formatTablesGo, hblank]
      · by_cases hb : pyStrip r = []
        · simp [formatTablesGo, hb]
        · simp [formatTablesGo, hb, hnc]
  | cons x g2 ih =>
    rw [List.all_cons, Bool.and_eq_true_iff] at hg
    obtain ⟨hx, hg2⟩ := hg
    rcases Bool.and_eq_true_iff.mp hx with ⟨hxs, hxc⟩
    have hxs2 : ¬ pyStrip x = [] := by
      intro he
      rw [he] at hxs
      exact Bool.noConfusion hxs
    rw [List.cons_append]
    simp only [formatTablesGo]
    rw [if_neg hxs2, if_pos hxc]
    rw [if_pos trivial]
    rw [ih (acc ++ [splitOnChar '\t' x]) hg2]
    rw [List.map_cons]
    rw [List.append_assoc]
    rfl

/-- C7: heuristic table rendering in direction A.  The row renderer agrees
with the spec's description (header, `---` separator per column, data rows,
one blank line; max-width columns, right-padded, trimmed cells); a maximal
group of consecutive candidate rows (non-blank lines containing a tab) is
rendered in place followed by the rest of the scan; and the spec's concrete
round-trip example holds, with the rendered table followed by the blank line
visible in the line-split view. -/
theorem heuristic_table_rendering :
    (∀ rows, createMarkdownTable rows = specTableRender rows) ∧
    (∀ (g rest : List (List Char)),
      g ≠ [] →
      g.all (fun x => !(pyStrip x).isEmpty && isTableCandidate x) = true →
      (rest = [] ∨ ∃ r rest2, rest = r :: rest2 ∧
        (pyStrip r = [] ∨ isTableCandidate r = false)) →
      formatTablesGo (g ++ rest) false [] =
        createMarkdownTable (g.map (splitOnChar '\t')) ++ formatTablesGo rest false []) ∧
    formatText ("Name\tAge\nAlice\t30\nBob\t25".data) true false =
      "| Name | Age |\n| --- | --- |\n| Alice | 30 |\n| Bob | 25 |\n".data ∧
    formatText ("Name\tAge\nAlice\t30\nBob\t25".data) true true =
      "| Name | Age |\n| --- | --- |\n| Alice | 30 |\n| Bob | 25 |\n".data ∧
    splitOnChar '\n' (formatText ("Name\tAge\nAlice\t30\nBob\t25".data) true false) =
      ["| Name | Age |".data, "| --- | --- |".data, "| Alice | 30 |".data,
       "| Bob | 25 |".data, []] := by
  refine ⟨createMarkdownTable_eq_spec, ?_, by decide, by decide, by decide⟩
  intro g rest hgne hg hrest
  obtain ⟨x, g2, rfl⟩ := List.exists_cons_of_ne_nil hgne
  rw [List.all_cons, Bool.and_eq_true_iff] at hg
  obtain ⟨hx, hg2⟩ := hg
  rcases Bool.and_eq_true_iff.mp hx with ⟨hxs, hxc⟩
  have hxs2 : ¬ pyStrip x = [] := fun he => by rw [he] at hxs; exact Bool.noConfusion hxs
  rw [List.cons_append]
  simp only [formatTablesGo]
  rw [if_neg hxs2, if_pos hxc]
  rw [show ((if false = true then ([] : List (List (List Char))) else []) ++
    [splitOnChar '\t' x]) = [splitOnChar '\t' x] from rfl]
  rw [formatTablesGo_group g2 rest [splitOnChar '\t' x] hg2 hrest]
  rfl

/-- Witness for C7: the rendering equality and the grouping rule applied to a
concrete one-row group followed by a non-candidate line. -/
theorem heuristic_table_rendering_witness :
    createMarkdownTable [["a".data]] = specTableRender [["a".data]] ∧
    formatTablesGo (["a\tb".data] ++ ["x".data]) false [] =
      createMarkdownTable (["a\tb".data].map (splitOnChar '\t')) ++
        formatTablesGo ["x".data] false [] :=
  ⟨heuristic_table_rendering.1 _,
    heuristic_table_rendering.2.1 ["a\tb".data] ["x".data] (by decide) (by decide)
      (Or.inr ⟨"x".data, [], rfl, Or.inr (by decide)⟩)⟩

end Hwpx
